import Mathlib

/-!
Verification of the Oryol `poolAllocator` (src/code/Modules/Core/Memory/poolAllocator.h).

The allocator manages up to 256 "puddles" of 256 fixed-size blocks each.  Every
block starts with a 16-byte header `node { next, myTag, state }`; handles
(`nodeTag`) are 32-bit values `[16-bit generation | 8-bit puddle | 8-bit element]`
and `0xFFFFFFFF` is the sentinel.  We embed the single-threaded execution of the
allocator (the `#else` branches of the `ORYOL_HAS_ATOMIC` conditionals; with one
thread the atomic branches compute the same states).  Blocks are indexed by
their low-16-bit identity `puddleIndex * 256 + elmIndex`, which is exactly how
`addressFromTag` resolves a handle.  Machine integers become `Nat` with explicit
`% 2^32` / `% 2^16` / `% 2^8` where the code masks or can wrap; bit operations
on handles are written arithmetically (`t & 0xFF = t % 256`,
`(t & 0xFF00) >> 8 = (t % 65536) / 256`, `(t & 0xFFFF) | (g16 << 16) =
t % 65536 + g16 * 65536`).  `o_assert` failures are modelled as `none`:
the spec's §7 states that all assertion failures are fatal.
-/

namespace PoolAlloc

/-- `nodeState` from poolAllocator.h: `init, free, used`. -/
inductive nodeState where
  | init
  | free
  | used
deriving DecidableEq, Repr

/-- The block header `node { nodeTag next; nodeTag myTag; nodeState state; }`
(padding omitted: it has no behaviour). Tags are 32-bit, kept `< 2^32` by the
operations. -/
structure node where
  next : Nat
  myTag : Nat
  state : nodeState
deriving DecidableEq, Repr

/-- `invalidTag = 0xFFFFFFFF`, the sentinel handle. -/
def invalidTag : Nat := 0xFFFFFFFF

/-- The mutable state of a `poolAllocator`: `elmSize`, `uniqueCount`, `head`,
`numPuddles`, and the contents of all block headers.  `blocks` is indexed by
the low-16-bit identity `(puddleIndex << 8) | elmIndex` of a block, which is
the index `addressFromTag` computes from a handle; the puddle base addresses
themselves are runtime values of the memory provider and are passed separately
(as `pb : Nat → Nat`) to the address-level functions. -/
structure allocState where
  elmSize : Nat
  uniqueCount : Nat
  head : Nat
  numPuddles : Nat
  blocks : Nat → node

/-- `addressFromTag`: `elmIndex = tag & 0xFF`, `puddleIndex = (tag & 0xFF00) >> 8`,
address `= puddles[puddleIndex] + elmIndex * elmSize`.  `pb p` stands for the
byte address `puddles[p]`. -/
def addressFromTag (pb : Nat → Nat) (es tag : Nat) : Nat :=
  pb ((tag % 65536) / 256) + (tag % 256) * es

/-- The low-16-bit block identity a handle resolves to; `addressFromTag`
reads the block at this index. -/
def idOfTag (tag : Nat) : Nat := tag % 65536

/-- `push(node*)`: asserts the node is `init` or `used` and its `next` is the
sentinel; then sets `state = free`, re-stamps `myTag` with the low 16 bits of
the pre-incremented `uniqueCount` (`myTag = (myTag & 0xFFFF) |
((++uniqueCount & 0xFFFF) << 16)`), links `next` to the current head and
installs the new `myTag` as head. -/
def push (s : allocState) (id : Nat) : Option allocState :=
  let n := s.blocks id
  if (n.state = nodeState.init ∨ n.state = nodeState.used) ∧ n.next = invalidTag then
    let u := (s.uniqueCount + 1) % 4294967296
    let newTag := n.myTag % 65536 + (u % 65536) * 65536
    some { s with
      uniqueCount := u
      head := newTag
      blocks := fun j => if j = id then ⟨s.head, newTag, nodeState.free⟩ else s.blocks j }
  else
    none

/-- `pop()`: returns `(none, s)` if head is the sentinel; otherwise resolves the
head handle to its block, asserts that block is `free`, advances the head to the
block's `next`, clears the block's `next` to the sentinel, marks it `used` and
returns its identity. -/
def pop (s : allocState) : Option (Option Nat × allocState) :=
  if s.head = invalidTag then
    some (none, s)
  else
    let id := s.head % 65536
    let n := s.blocks id
    if n.state = nodeState.free then
      some (some id,
        { s with
          head := n.next
          blocks := fun j => if j = id then ⟨invalidTag, n.myTag, nodeState.used⟩ else s.blocks j })
    else
      none

/-- One iteration of the `allocPuddle` population loop for element `e` of
puddle `p`: write the freshly zeroed header (`next = invalidTag`,
`myTag = (p << 8) | e`, `state = init`) and push it onto the free list. -/
def initAndPush (s : allocState) (p e : Nat) : Option allocState :=
  let id := p * 256 + e
  push { s with
    blocks := fun j => if j = id then ⟨invalidTag, id, nodeState.init⟩ else s.blocks j } id

/-- The `allocPuddle` population loop, `for (elmIndex = k-1; elmIndex >= 0; elmIndex--)`:
`pushDown p s k` processes elements `k-1, k-2, …, 0` of puddle `p`. -/
def pushDown (p : Nat) : allocState → Nat → Option allocState
  | s, 0 => some s
  | s, e + 1 => (initAndPush s p e).bind fun s' => pushDown p s' e

/-- `allocPuddle()`: reserve slot `numPuddles` (the fetch-add returns the old
value), assert it is `< MaxNumPuddles = 256`, then initialize and push all 256
elements from index 255 down to 0. -/
def allocPuddle (s : allocState) : Option allocState :=
  let p := s.numPuddles
  if p < 256 then
    pushDown p { s with numPuddles := p + 1 } 256
  else
    none

/-- `Create(...)`: pop; on empty free list allocate a puddle and pop again;
assert the final pop returned a block.  Returns the block identity (the `TYPE*`
handed to the caller is that block's address plus 16). -/
def create (s : allocState) : Option (Nat × allocState) :=
  match pop s with
  | none => none
  | some (some id, s') => some (id, s')
  | some (none, s') =>
    match allocPuddle s' with
    | none => none
    | some s2 =>
      match pop s2 with
      | none => none
      | some (some id, s3) => some (id, s3)
      | some (none, _) => none

/-- `Destroy(obj)`: run the destructor (no payload in the model), recover the
node by subtracting the 16-byte header, and push it. -/
def destroy (s : allocState) (id : Nat) : Option allocState :=
  push s id

/-- `isOwned(obj)`: scan the allocated puddles; true iff the pointer lies in
`[puddles[i], puddles[i] + NumPuddleElements * elmSize)` for some `i < numPuddles`. -/
def isOwned (pb : Nat → Nat) (es num ptr : Nat) : Bool :=
  (List.range num).any fun i => decide (pb i ≤ ptr) && decide (ptr < pb i + 256 * es)

/-- Modelled from the spec: `Memory::RoundUp` (Core/Memory/Memory.h is not in
the sources). The spec fixes the stride to `round_up(16 + sizeof(T), 16)`, the
least multiple of `k` that is `≥ n`. -/
def roundUp (n k : Nat) : Nat := ((n + k - 1) / k) * k

/-- A freshly constructed allocator with the given stride: no puddles, empty
free list, zero generation counter (block headers do not exist yet; the model
gives unallocated indices a zeroed header, as `allocPuddle` zeroes a puddle
before initializing it). -/
def mkAlloc (es : Nat) : allocState :=
  { elmSize := es
    uniqueCount := 0
    head := invalidTag
    numPuddles := 0
    blocks := fun _ => ⟨0, 0, nodeState.init⟩ }

/-- The constructor for a payload of `sizeofT` bytes: computes
`elmSize = RoundUp(sizeof(node) + sizeof(TYPE), sizeof(node))` and asserts
`(elmSize & 15) == 0` and `elmSize >= 32`. -/
def ctor (sizeofT : Nat) : Option allocState :=
  let es := roundUp (16 + sizeofT) 16
  if es % 16 = 0 ∧ 32 ≤ es then some (mkAlloc es) else none

/-- `n` sequential `Create` calls, failing if any fails. -/
def createN (s : allocState) : Nat → Option allocState
  | 0 => some s
  | n + 1 =>
    match create s with
    | none => none
    | some (_, s') => createN s' n

/-- The 16-bit generation field of a handle (its high 16 bits). -/
def genOf (tag : Nat) : Nat := (tag / 65536) % 65536

/-! ### Small structural lemmas -/

theorem pop_uniqueCount (s : allocState) (r : Option Nat) (s' : allocState)
    (h : pop s = some (r, s')) : s'.uniqueCount = s.uniqueCount := by
  simp only [pop] at h
  split at h
  · cases h
    rfl
  · split at h
    · cases h
      rfl
    · cases h

theorem push_eq_some (s : allocState) (id : Nat) (s' : allocState)
    (h : push s id = some s') :
    s'.uniqueCount = (s.uniqueCount + 1) % 4294967296
    ∧ s'.head = (s.blocks id).myTag % 65536
        + ((s.uniqueCount + 1) % 4294967296 % 65536) * 65536 := by
  simp only [push] at h
  split at h
  · cases h
    exact ⟨rfl, rfl⟩
  · cases h

/-! ### Concrete states used by the witnesses -/

/-- A one-puddle state whose blocks all look freshly initialized
(`next = invalidTag`, `state = init`); block `j` has `myTag = j` for `j < 256`. -/
def cW : allocState :=
  { elmSize := 48
    uniqueCount := 0
    head := invalidTag
    numPuddles := 1
    blocks := fun j => ⟨invalidTag, j % 256, nodeState.init⟩ }

/-- `cW` after `push cW 0`. -/
def cW1 : allocState :=
  { elmSize := 48
    uniqueCount := 1
    head := 65536
    numPuddles := 1
    blocks := fun j => if j = 0 then ⟨invalidTag, 65536, nodeState.free⟩ else cW.blocks j }

/-- `cW1` after `push cW1 1`. -/
def cW2 : allocState :=
  { elmSize := 48
    uniqueCount := 2
    head := 1 + 2 * 65536
    numPuddles := 1
    blocks := fun j => if j = 1 then ⟨65536, 1 + 2 * 65536, nodeState.free⟩ else cW1.blocks j }

theorem push_cW : push cW 0 = some cW1 := by
  simp only [push, cW, cW1, invalidTag]
  norm_num

theorem push_cW1 : push cW1 1 = some cW2 := by
  simp only [push, cW, cW1, cW2, invalidTag]
  norm_num

/-! ### C1: the push contract -/

/-- C1: for a call `push` on a block in state `init` or `used` (whose `next`
is the sentinel, as the code also asserts and as spec invariant 4 guarantees
for such blocks): the generation counter is fetch-incremented, the block's
handle is rewritten to its unchanged low 16 bits with the counter's low 16
bits in the high 16 bits, the state becomes `free`, the previously observed
head goes into the block's `next`, and the new handle becomes the head. -/
theorem c1_push_contract (s : allocState) (id : Nat)
    (hstate : (s.blocks id).state = nodeState.init ∨ (s.blocks id).state = nodeState.used)
    (hnext : (s.blocks id).next = invalidTag) :
    ∃ s', push s id = some s'
      ∧ s'.uniqueCount = (s.uniqueCount + 1) % 4294967296
      ∧ (s'.blocks id).myTag
          = (s.blocks id).myTag % 65536 + (s'.uniqueCount % 65536) * 65536
      ∧ (s'.blocks id).myTag % 65536 = (s.blocks id).myTag % 65536
      ∧ (s'.blocks id).state = nodeState.free
      ∧ (s'.blocks id).next = s.head
      ∧ s'.head = (s'.blocks id).myTag
      ∧ (∀ j, j ≠ id → s'.blocks j = s.blocks j)
      ∧ s'.numPuddles = s.numPuddles ∧ s'.elmSize = s.elmSize := by
  refine ⟨{ s with
      uniqueCount := (s.uniqueCount + 1) % 4294967296
      head := (s.blocks id).myTag % 65536
        + ((s.uniqueCount + 1) % 4294967296 % 65536) * 65536
      blocks := fun j => if j = id then
          ⟨s.head, (s.blocks id).myTag % 65536
            + ((s.uniqueCount + 1) % 4294967296 % 65536) * 65536, nodeState.free⟩
        else s.blocks j }, ?_, rfl, ?_, ?_, ?_, ?_, ?_, ?_, rfl, rfl⟩
  · simp only [push]
    rw [if_pos ⟨hstate, hnext⟩]
  · simp
  · simp
  · simp
  · simp
  · simp
  · intro j hj
    simp [hj]

/-- Witness for C1 at a concrete input. -/
theorem c1_push_contract_witness :
    ∃ s', push cW 0 = some s'
      ∧ s'.uniqueCount = (cW.uniqueCount + 1) % 4294967296
      ∧ (s'.blocks 0).myTag
          = (cW.blocks 0).myTag % 65536 + (s'.uniqueCount % 65536) * 65536
      ∧ (s'.blocks 0).myTag % 65536 = (cW.blocks 0).myTag % 65536
      ∧ (s'.blocks 0).state = nodeState.free
      ∧ (s'.blocks 0).next = cW.head
      ∧ s'.head = (s'.blocks 0).myTag
      ∧ (∀ j, j ≠ 0 → s'.blocks j = cW.blocks j)
      ∧ s'.numPuddles = cW.numPuddles ∧ s'.elmSize = cW.elmSize :=
  c1_push_contract cW 0 (Or.inl rfl) rfl

/-! ### C2: the pop contract -/

/-- C2: `pop` returns `none` iff the head is the sentinel `0xFFFFFFFF`;
otherwise (the popped block being `free`, as the code asserts) it returns the
block named by the head's low 16 bits, the head becomes that block's former
`next`, and on the popped block `next` becomes the sentinel and the state
becomes `used`. -/
theorem c2_pop_contract (s : allocState) :
    (s.head = invalidTag → pop s = some (none, s))
    ∧ (∀ s', pop s = some (none, s') → s.head = invalidTag)
    ∧ (s.head ≠ invalidTag → (s.blocks (s.head % 65536)).state = nodeState.free →
        ∃ s', pop s = some (some (s.head % 65536), s')
          ∧ s'.head = (s.blocks (s.head % 65536)).next
          ∧ (s'.blocks (s.head % 65536)).next = invalidTag
          ∧ (s'.blocks (s.head % 65536)).state = nodeState.used
          ∧ (s'.blocks (s.head % 65536)).myTag = (s.blocks (s.head % 65536)).myTag
          ∧ (∀ j, j ≠ s.head % 65536 → s'.blocks j = s.blocks j)
          ∧ s'.uniqueCount = s.uniqueCount ∧ s'.numPuddles = s.numPuddles
          ∧ s'.elmSize = s.elmSize) := by
  refine ⟨fun h => ?_, fun s' h => ?_, fun h hfree => ?_⟩
  · simp only [pop, if_pos h]
  · by_contra hne
    simp only [pop, if_neg hne] at h
    split at h
    · cases h
    · cases h
  · refine ⟨{ s with
        head := (s.blocks (s.head % 65536)).next
        blocks := fun j => if j = s.head % 65536 then
            ⟨invalidTag, (s.blocks (s.head % 65536)).myTag, nodeState.used⟩
          else s.blocks j }, ?_, rfl, ?_, ?_, ?_, ?_, rfl, rfl, rfl⟩
    · simp only [pop, if_neg h]
      rw [if_pos hfree]
    · simp
    · simp
    · simp
    · intro j hj
      simp [hj]

/-- Witness for C2 at a concrete input (`cW1` has head `65536`, whose block
`0` is free). -/
theorem c2_pop_contract_witness :
    ∃ s', pop cW1 = some (some (cW1.head % 65536), s')
      ∧ s'.head = (cW1.blocks (cW1.head % 65536)).next
      ∧ (s'.blocks (cW1.head % 65536)).next = invalidTag
      ∧ (s'.blocks (cW1.head % 65536)).state = nodeState.used
      ∧ (s'.blocks (cW1.head % 65536)).myTag = (cW1.blocks (cW1.head % 65536)).myTag
      ∧ (∀ j, j ≠ cW1.head % 65536 → s'.blocks j = cW1.blocks j)
      ∧ s'.uniqueCount = cW1.uniqueCount ∧ s'.numPuddles = cW1.numPuddles
      ∧ s'.elmSize = cW1.elmSize :=
  (c2_pop_contract cW1).2.2 (by decide) (by decide)

/-! ### C3: generation monotonicity across consecutive pushes -/

/-- C3: across two consecutive successful pushes (second performed on a state
carrying the generation counter left by the first, i.e. no push in between —
`pop` does not touch the counter, see `pop_uniqueCount`), the head's 16-bit
generation field increases by exactly one modulo `2^16`, and in particular
differs. -/
theorem c3_generation_monotone (s s' s1 s2 : allocState) (a b : Nat)
    (h1 : push s a = some s1)
    (hmid : s'.uniqueCount = s1.uniqueCount)
    (h2 : push s' b = some s2) :
    genOf s2.head = (genOf s1.head + 1) % 65536
    ∧ genOf s2.head ≠ genOf s1.head := by
  obtain ⟨hu1, hh1⟩ := push_eq_some s a s1 h1
  obtain ⟨hu2, hh2⟩ := push_eq_some s' b s2 h2
  rw [hmid, hu1] at hu2 hh2
  simp only [genOf, hh1, hh2]
  omega

/-- Witness for C3 at a concrete input. -/
theorem c3_generation_monotone_witness :
    genOf cW2.head = (genOf cW1.head + 1) % 65536
    ∧ genOf cW2.head ≠ genOf cW1.head :=
  c3_generation_monotone cW cW1 cW1 cW2 0 1 push_cW rfl push_cW1

/-! ### C6: the stride computation -/

/-- C6: the constructor computes `elmSize = roundUp (16 + sizeofT) 16`; for any
payload size `≥ 1` (every C++ type has `sizeof ≥ 1`) the stride is a multiple
of 16 and at least 32, so construction succeeds; and any configuration whose
stride fails either check is rejected by the construction-time assertions
(`ctor` returns `none`). -/
theorem c6_stride (t : Nat) (ht : 1 ≤ t) :
    (∃ s, ctor t = some s ∧ s.elmSize = roundUp (16 + t) 16)
    ∧ roundUp (16 + t) 16 % 16 = 0
    ∧ 32 ≤ roundUp (16 + t) 16
    ∧ (∀ u, (roundUp (16 + u) 16 % 16 ≠ 0 ∨ roundUp (16 + u) 16 < 32) →
        ctor u = none) := by
  have hmod : ∀ u : Nat, roundUp (16 + u) 16 % 16 = 0 := by
    intro u
    simp only [roundUp]
    omega
  have hge : 32 ≤ roundUp (16 + t) 16 := by
    simp only [roundUp]
    omega
  refine ⟨⟨mkAlloc (roundUp (16 + t) 16), ?_, rfl⟩, hmod t, hge, ?_⟩
  · simp only [ctor]
    rw [if_pos ⟨hmod t, hge⟩]
  · intro u hu
    simp only [ctor]
    rw [if_neg]
    intro ⟨hc1, hc2⟩
    rcases hu with hu | hu
    · exact hu hc1
    · omega

/-- Witness for C6 at `sizeof(T) = 24` (stride 48). -/
theorem c6_stride_witness :
    (∃ s, ctor 24 = some s ∧ s.elmSize = roundUp (16 + 24) 16)
    ∧ roundUp (16 + 24) 16 % 16 = 0
    ∧ 32 ≤ roundUp (16 + 24) 16
    ∧ (∀ u, (roundUp (16 + u) 16 % 16 ≠ 0 ∨ roundUp (16 + u) 16 < 32) →
        ctor u = none) :=
  c6_stride 24 (by decide)

/-! ### C7: address resolution -/

/-- C7: for a handle `tag` whose puddle index is allocated, the resolved block
address is `puddles[p] + e * elmSize` with `e` the low 8 bits and `p` bits
8–15; the high 16 generation bits have no effect on the resolved address. -/
theorem c7_addressFromTag (pb : Nat → Nat) (es num tag : Nat)
    (_hp : (tag % 65536) / 256 < num) :
    addressFromTag pb es tag = pb ((tag / 256) % 256) + (tag % 256) * es
    ∧ ∀ g, addressFromTag pb es (tag % 65536 + g * 65536) = addressFromTag pb es tag := by
  constructor
  · have h1 : (tag % 65536) / 256 = (tag / 256) % 256 := by omega
    simp only [addressFromTag, h1]
  · intro g
    have h1 : (tag % 65536 + g * 65536) % 65536 / 256 = (tag % 65536) / 256 := by omega
    have h2 : (tag % 65536 + g * 65536) % 256 = tag % 256 := by omega
    simp only [addressFromTag, h1, h2]

/-- Witness for C7 at a concrete input: handle `0x00030102` (generation 3,
puddle 1, element 2) with 2 puddles allocated. -/
theorem c7_addressFromTag_witness :
    addressFromTag (fun p => 1000 * p) 48 196866
        = (fun p => 1000 * p) ((196866 / 256) % 256) + (196866 % 256) * 48
    ∧ ∀ g, addressFromTag (fun p => 1000 * p) 48 (196866 % 65536 + g * 65536)
        = addressFromTag (fun p => 1000 * p) 48 196866 :=
  c7_addressFromTag (fun p => 1000 * p) 48 2 196866 (by decide)

/-! ### C10: the debug ownership check -/

/-- C10: `isOwned` accepts exactly the pointers lying in the half-open range
`[puddles[i], puddles[i] + 256 * elmSize)` of some allocated puddle `i`; in
particular it accepts a pointer at a non-stride-aligned offset (offset 1, which
also lies inside block 0's header, an address `Create` never returns). -/
theorem c10_isOwned :
    (∀ (pb : Nat → Nat) (es num ptr : Nat),
      isOwned pb es num ptr = true
        ↔ ∃ i, i < num ∧ pb i ≤ ptr ∧ ptr < pb i + 256 * es)
    ∧ isOwned (fun _ => 0) 48 1 1 = true
    ∧ (∀ e, 1 ≠ e * 48) ∧ 1 < 16 := by
  refine ⟨fun pb es num ptr => ?_, by decide, fun e => by omega, by decide⟩
  simp only [isOwned, List.any_eq_true, List.mem_range, Bool.and_eq_true,
    decide_eq_true_eq]

end PoolAlloc

namespace PoolAlloc

/-! ### C5: single-threaded create/destroy cycle for a 24-byte payload -/

/-- The state of the C5 scenario after a step returning an object (falls back
to the initial state if the step failed; the theorem shows each step succeeds). -/
def c5next (r : Option (Nat × allocState)) : allocState :=
  (r.map Prod.snd).getD (mkAlloc 48)

/-- Fresh allocator for a 24-byte payload. -/
def c5s0 : allocState := (ctor 24).getD (mkAlloc 48)

def c5s1 : allocState := c5next (create c5s0)

def c5s2 : allocState := c5next (create c5s1)

def c5s3 : allocState := c5next (create c5s2)

def c5s4 : allocState := (destroy c5s3 1).getD c5s3

def c5s5 : allocState := c5next (create c5s4)

set_option maxRecDepth 100000 in
/-- C5: with a 24-byte `T` the stride is 48; three `Create` calls on a fresh
allocator return the blocks with identities 0, 1, 2 — the blocks at byte
offsets `puddles[0] + 0`, `+ 48`, `+ 96` — and after destroying the middle
object the next `Create` returns the block at `+ 48` again. -/
theorem c5_cycle :
    ctor 24 = some c5s0
    ∧ c5s0.elmSize = 48
    ∧ create c5s0 = some (0, c5s1)
    ∧ create c5s1 = some (1, c5s2)
    ∧ create c5s2 = some (2, c5s3)
    ∧ destroy c5s3 1 = some c5s4
    ∧ create c5s4 = some (1, c5s5)
    ∧ ∀ pb : Nat → Nat,
        addressFromTag pb 48 0 = pb 0 + 0 * 48
        ∧ addressFromTag pb 48 1 = pb 0 + 1 * 48
        ∧ addressFromTag pb 48 2 = pb 0 + 2 * 48 := by
  refine ⟨rfl, rfl, rfl, rfl, rfl, rfl, rfl, ?_⟩
  intro pb
  refine ⟨?_, ?_, ?_⟩ <;> simp [addressFromTag]

end PoolAlloc

namespace PoolAlloc

/-! ### C8: distinctness of outstanding objects — execution model -/

/-- A client operation: a `Create` call, or a `Destroy` call on the live object
with the given block identity. -/
inductive op where
  | createOp : op
  | destroyOp : Nat → op

/-- One client operation on (allocator state, list of outstanding block
identities).  `Destroy` may only be called on a pointer previously returned by
`Create` and not yet destroyed (anything else is undefined behaviour for the
allocator), so a `destroyOp` on a non-outstanding identity is not an execution. -/
def execOp (so : allocState × List Nat) : op → Option (allocState × List Nat)
  | op.createOp =>
    match create so.1 with
    | none => none
    | some (id, s') => some (s', id :: so.2)
  | op.destroyOp id =>
    if id ∈ so.2 then
      match destroy so.1 id with
      | none => none
      | some s' => some (s', so.2.erase id)
    else
      none

/-- A client execution: a sequence of operations. -/
def exec (so : allocState × List Nat) : List op → Option (allocState × List Nat)
  | [] => some so
  | o :: os => (execOp so o).bind fun so' => exec so' os

/-- The free-list shape hanging off a tag: either the tag is the sentinel, or
its low 16 bits name a `free` block of an allocated puddle whose `next` field
continues the chain. -/
inductive chain (s : allocState) : Nat → List Nat → Prop where
  | nil : chain s invalidTag []
  | cons (t : Nat) (L : List Nat)
      (hne : t ≠ invalidTag)
      (hlt : t % 65536 < s.numPuddles * 256)
      (hfree : (s.blocks (t % 65536)).state = nodeState.free)
      (hrest : chain s ((s.blocks (t % 65536)).next) L) :
      chain s t (t % 65536 :: L)

/-- The allocator invariant relative to the outstanding identities `out`:
`out` has no duplicates; outstanding blocks are `used`, have sentinel `next`
and live in allocated puddles; every allocated block's stored handle keeps its
identity in its low 16 bits; at most 256 puddles; and the head hangs a
duplicate-free chain of free blocks. -/
def Inv (s : allocState) (out : List Nat) : Prop :=
  out.Nodup
  ∧ (∀ id ∈ out, (s.blocks id).state = nodeState.used
      ∧ (s.blocks id).next = invalidTag
      ∧ id < s.numPuddles * 256)
  ∧ (∀ id, id < s.numPuddles * 256 → (s.blocks id).myTag % 65536 = id)
  ∧ s.numPuddles ≤ 256
  ∧ ∃ L, chain s s.head L ∧ L.Nodup

theorem chain_mem_free (s : allocState) (t : Nat) (L : List Nat)
    (h : chain s t L) : ∀ id ∈ L, (s.blocks id).state = nodeState.free := by
  induction h with
  | nil => intro id h; cases h
  | cons t L hne hlt hfree hrest ih =>
    intro id hid
    rcases List.mem_cons.mp hid with rfl | hid
    · exact hfree
    · exact ih id hid

theorem chain_mem_lt (s : allocState) (t : Nat) (L : List Nat)
    (h : chain s t L) : ∀ id ∈ L, id < s.numPuddles * 256 := by
  induction h with
  | nil => intro id h; cases h
  | cons t L hne hlt hfree hrest ih =>
    intro id hid
    rcases List.mem_cons.mp hid with rfl | hid
    · exact hlt
    · exact ih id hid

/-- A chain is untouched by state changes that keep `numPuddles` and the
headers of the chain's blocks. -/
theorem chain_frame (s s' : allocState) (t : Nat) (L : List Nat)
    (h : chain s t L)
    (hnum : s'.numPuddles = s.numPuddles)
    (hblocks : ∀ id ∈ L, s'.blocks id = s.blocks id) : chain s' t L := by
  induction h with
  | nil => exact chain.nil
  | cons t L hne hlt hfree hrest ih =>
    have hb : s'.blocks (t % 65536) = s.blocks (t % 65536) :=
      hblocks _ (List.mem_cons_self _ _)
    exact chain.cons t L hne (hnum ▸ hlt) (hb ▸ hfree)
      (hb ▸ ih fun id hid => hblocks id (List.mem_cons_of_mem _ hid))

/-- A chain survives adding puddles. -/
theorem chain_mono (s s' : allocState) (t : Nat) (L : List Nat)
    (h : chain s t L)
    (hnum : s.numPuddles ≤ s'.numPuddles)
    (hblocks : ∀ id ∈ L, s'.blocks id = s.blocks id) : chain s' t L := by
  induction h with
  | nil => exact chain.nil
  | cons t L hne hlt hfree hrest ih =>
    have hb : s'.blocks (t % 65536) = s.blocks (t % 65536) :=
      hblocks _ (List.mem_cons_self _ _)
    refine chain.cons t L hne ?_ (hb ▸ hfree)
      (hb ▸ ih fun id hid => hblocks id (List.mem_cons_of_mem _ hid))
    exact lt_of_lt_of_le hlt (Nat.mul_le_mul_right 256 hnum)

end PoolAlloc

namespace PoolAlloc

theorem chain_nil_inv (s : allocState) (t : Nat) (h : chain s t []) :
    t = invalidTag := by
  cases h
  rfl

theorem chain_cons_inv (s : allocState) (t id : Nat) (L : List Nat)
    (h : chain s t (id :: L)) :
    t ≠ invalidTag ∧ id = t % 65536 ∧ id < s.numPuddles * 256
    ∧ (s.blocks id).state = nodeState.free
    ∧ chain s ((s.blocks id).next) L := by
  cases h
  exact ⟨by assumption, rfl, by assumption, by assumption, by assumption⟩

theorem chain_cons_of_mod (s' : allocState) (t id : Nat) (L : List Nat)
    (hmod : t % 65536 = id)
    (hne : t ≠ invalidTag) (hlt : id < s'.numPuddles * 256)
    (hfree : (s'.blocks id).state = nodeState.free)
    (hrest : chain s' ((s'.blocks id).next) L) :
    chain s' t (id :: L) := by
  subst hmod
  exact chain.cons t L hne hlt hfree hrest

/-- The free-list chain after a successful `push` of `id` stamped to `newTag`. -/
theorem chain_after_push (s : allocState) (id newTag u' : Nat) (L : List Nat)
    (hchain : chain s s.head L) (hidL : id ∉ L)
    (hbad : newTag ≠ invalidTag) (hmod : newTag % 65536 = id)
    (hlt : id < s.numPuddles * 256) :
    chain { s with
        uniqueCount := u'
        head := newTag
        blocks := fun j => if j = id then ⟨s.head, newTag, nodeState.free⟩
          else s.blocks j }
      newTag (id :: L) := by
  refine chain_cons_of_mod _ newTag id L hmod hbad ?_ ?_ ?_
  · simpa using hlt
  · simp
  · have hS : (({ s with
        uniqueCount := u'
        head := newTag
        blocks := fun j => if j = id then ⟨s.head, newTag, nodeState.free⟩
          else s.blocks j } : allocState).blocks id) =
        ⟨s.head, newTag, nodeState.free⟩ := by simp
    rw [hS]
    exact chain_frame s _ s.head L hchain rfl fun j hj => by
      simp [show j ≠ id from fun he => hidL (he ▸ hj)]

/-- `push` on an outstanding (`used`) block preserves the invariant and moves
the block from the outstanding set onto the free list. -/
theorem push_inv (s s' : allocState) (out : List Nat) (id : Nat)
    (hInv : Inv s out) (hid : id ∈ out) (h : push s id = some s') :
    Inv s' (out.erase id) := by
  obtain ⟨hnd, hout, htag, hnp, L, hchain, hLnd⟩ := hInv
  obtain ⟨hused, hnext, hlt⟩ := hout id hid
  have hid65536 : id < 65536 := by
    have := Nat.mul_le_mul_right 256 hnp
    omega
  simp only [push] at h
  rw [if_pos ⟨Or.inr hused, hnext⟩] at h
  cases h
  have hidL : id ∉ L := fun hmem =>
    by simp [chain_mem_free s s.head L hchain id hmem] at hused
  refine ⟨hnd.erase id, ?_, ?_, hnp, ?_⟩
  · intro j hj
    obtain ⟨hjne, hjout⟩ := (List.Nodup.mem_erase_iff hnd).mp hj
    obtain ⟨h1, h2, h3⟩ := hout j hjout
    simpa [hjne] using ⟨h1, h2, h3⟩
  · intro j hjlt
    by_cases hj : j = id
    · have h2 := htag id hlt
      subst hj
      simp only [if_pos rfl]
      simp only [if_true]
      omega
    · simpa [hj] using htag j hjlt
  · by_cases hbad :
      (s.blocks id).myTag % 65536 + (s.uniqueCount + 1) % 4294967296 % 65536 * 65536
        = invalidTag
    · exact ⟨[], by simp only [hbad]; exact chain.nil, List.nodup_nil⟩
    · refine ⟨id :: L, ?_, hLnd.cons hidL⟩
      have hmod :
          ((s.blocks id).myTag % 65536 + (s.uniqueCount + 1) % 4294967296 % 65536 * 65536)
            % 65536 = id := by
        have := htag id hlt
        omega
      exact chain_after_push s id _ _ L hchain hidL hbad hmod hlt

/-- `pop` under the invariant: either the head is the sentinel and `pop`
reports an empty list, or it succeeds on a block that was not outstanding and
the invariant carries over with that block now outstanding. -/
theorem pop_inv (s : allocState) (out : List Nat) (hInv : Inv s out) :
    (s.head = invalidTag ∧ pop s = some (none, s))
    ∨ ∃ id s', pop s = some (some id, s') ∧ id ∉ out ∧ id < s.numPuddles * 256
        ∧ s'.numPuddles = s.numPuddles ∧ Inv s' (id :: out) := by
  obtain ⟨hnd, hout, htag, hnp, L, hchain, hLnd⟩ := hInv
  cases L with
  | nil =>
    have hh := chain_nil_inv s s.head hchain
    exact Or.inl ⟨hh, by simp [pop, hh]⟩
  | cons id L' =>
    obtain ⟨hne, hideq, hlt, hfree, hrest⟩ := chain_cons_inv s s.head id L' hchain
    subst hideq
    set id := s.head % 65536 with hid
    have hidout : id ∉ out := fun hmem => by
      simp [(hout id hmem).1] at hfree
    have hidL' : id ∉ L' := (List.nodup_cons.mp hLnd).1
    refine Or.inr ⟨id, { s with
        head := (s.blocks id).next
        blocks := fun j => if j = id then
            ⟨invalidTag, (s.blocks id).myTag, nodeState.used⟩
          else s.blocks j }, ?_, hidout, hlt, rfl, ?_⟩
    · simp only [pop, if_neg hne]
      rw [if_pos hfree]
    · refine ⟨hnd.cons hidout, ?_, ?_, hnp, L', ?_, (List.nodup_cons.mp hLnd).2⟩
      · intro j hj
        rcases List.mem_cons.mp hj with rfl | hj
        · exact ⟨by simp, by simp, hlt⟩
        · obtain ⟨h1, h2, h3⟩ := hout j hj
          have hjne : j ≠ id := fun he => hidout (he ▸ hj)
          simpa [hjne] using ⟨h1, h2, h3⟩
      · intro j hjlt
        by_cases hj : j = id
        · have h2 := htag id hlt
          subst hj
          simpa using h2
        · simpa [hj] using htag j hjlt
      · exact chain_frame s _ ((s.blocks id).next) L' hrest rfl
          fun j hj => by simp [show j ≠ id from fun he => hidL' (he ▸ hj)]

end PoolAlloc

namespace PoolAlloc

/-- The explicit result of a `push` whose assertions hold. -/
theorem push_eq_of (s : allocState) (id : Nat)
    (hstate : (s.blocks id).state = nodeState.init ∨ (s.blocks id).state = nodeState.used)
    (hnext : (s.blocks id).next = invalidTag) :
    push s id = some { s with
      uniqueCount := (s.uniqueCount + 1) % 4294967296
      head := (s.blocks id).myTag % 65536
        + ((s.uniqueCount + 1) % 4294967296 % 65536) * 65536
      blocks := fun j => if j = id then
          ⟨s.head, (s.blocks id).myTag % 65536
            + ((s.uniqueCount + 1) % 4294967296 % 65536) * 65536, nodeState.free⟩
        else s.blocks j } := by
  simp only [push]
  rw [if_pos ⟨hstate, hnext⟩]

/-- Invariant preservation through the `allocPuddle` population loop: starting
with the puddle slot already reserved, elements `k-1 … 0` still to be pushed,
and a free chain made of the already-pushed fresh elements (`≥ p*256 + k`),
the final state satisfies the allocator invariant. -/
theorem pushDown_inv (p : Nat) (k : Nat) :
    ∀ (s : allocState) (out : List Nat), k ≤ 256 →
    s.numPuddles = p + 1 → p + 1 ≤ 256 →
    out.Nodup →
    (∀ id ∈ out, (s.blocks id).state = nodeState.used
        ∧ (s.blocks id).next = invalidTag ∧ id < p * 256) →
    (∀ id, id < p * 256 → (s.blocks id).myTag % 65536 = id) →
    (∀ e, k ≤ e → e < 256 → (s.blocks (p * 256 + e)).myTag % 65536 = p * 256 + e) →
    (∃ L, chain s s.head L ∧ L.Nodup
        ∧ ∀ id ∈ L, p * 256 + k ≤ id ∧ id < p * 256 + 256) →
    ∀ s', pushDown p s k = some s' → Inv s' out := by
  induction k with
  | zero =>
    intro s out _ hnum hple hnd hout htag hfresh hchain s' hrun
    cases hrun
    obtain ⟨L, hch, hLnd, _⟩ := hchain
    refine ⟨hnd, ?_, ?_, by omega, L, hch, hLnd⟩
    · intro id hid
      obtain ⟨h1, h2, h3⟩ := hout id hid
      exact ⟨h1, h2, by omega⟩
    · intro id hidlt
      by_cases hlo : id < p * 256
      · exact htag id hlo
      · have he : id = p * 256 + (id - p * 256) := by omega
        rw [he]
        exact hfresh (id - p * 256) (by omega) (by omega)
  | succ k ih =>
    intro s out hk hnum hple hnd hout htag hfresh hchain s' hrun
    obtain ⟨L, hch, hLnd, hLbound⟩ := hchain
    simp only [pushDown, initAndPush] at hrun
    have hs1b : ((({ s with blocks := fun j => if j = p * 256 + k then ⟨invalidTag, p * 256 + k, nodeState.init⟩ else s.blocks j } : allocState)).blocks (p * 256 + k))
        = ⟨invalidTag, p * 256 + k, nodeState.init⟩ := by simp
    rw [push_eq_of _ _ (Or.inl (by rw [hs1b])) (by rw [hs1b])] at hrun
    rw [hs1b] at hrun
    simp only [Option.some_bind] at hrun
    set newTag := (p * 256 + k) % 65536
        + ((s.uniqueCount + 1) % 4294967296 % 65536) * 65536 with hnewTag
    have hid65536 : p * 256 + k < 65536 := by omega
    have hmod : newTag % 65536 = p * 256 + k := by omega
    have hidL : p * 256 + k ∉ L := fun hmem => by
      have := (hLbound _ hmem).1
      omega
    refine ih _ out (by omega) (by simpa using hnum) hple hnd ?_ ?_ ?_ ?_ s' hrun
    · intro id hid
      obtain ⟨h1, h2, h3⟩ := hout id hid
      have hne : id ≠ p * 256 + k := by omega
      simpa [hne] using ⟨h1, h2, h3⟩
    · intro id hidlt
      have hne : id ≠ p * 256 + k := by omega
      simpa [hne] using htag id hidlt
    · intro e hke he
      by_cases heq : e = k
      · subst heq
        simpa using hmod
      · have hne : p * 256 + e ≠ p * 256 + k := by omega
        simpa [hne] using hfresh e (by omega) he
    · by_cases hbad : newTag = invalidTag
      · refine ⟨[], ?_, List.nodup_nil, by simp⟩
        simp only [hbad]
        exact chain.nil
      · refine ⟨(p * 256 + k) :: L, ?_, hLnd.cons hidL, ?_⟩
        · have hch1 : chain ({ s with blocks := fun j => if j = p * 256 + k then ⟨invalidTag, p * 256 + k, nodeState.init⟩ else s.blocks j } : allocState)
              s.head L := by
            refine chain_frame s _ s.head L hch rfl fun j hj => ?_
            have hne : j ≠ p * 256 + k := fun he' => hidL (he' ▸ hj)
            simp [hne]
          have := chain_after_push
            ({ s with blocks := fun j => if j = p * 256 + k then ⟨invalidTag, p * 256 + k, nodeState.init⟩ else s.blocks j } : allocState)
            (p * 256 + k) newTag ((s.uniqueCount + 1) % 4294967296) L
            (by exact hch1) hidL hbad hmod (by simp [hnum]; omega)
          exact this
        · intro id hid
          rcases List.mem_cons.mp hid with rfl | hid
          · omega
          · have := hLbound id hid
            omega

end PoolAlloc

namespace PoolAlloc

/-- `allocPuddle` (called by `Create` only on an empty free list) preserves the
invariant. -/
theorem allocPuddle_inv (s s' : allocState) (out : List Nat)
    (hInv : Inv s out) (hhead : s.head = invalidTag)
    (h : allocPuddle s = some s') : Inv s' out := by
  obtain ⟨hnd, hout, htag, hnp, L, hchain, hLnd⟩ := hInv
  simp only [allocPuddle] at h
  split at h
  case isTrue hlt =>
    refine pushDown_inv s.numPuddles 256 _ out le_rfl rfl (by omega) hnd ?_ ?_ ?_ ?_ s' h
    · intro id hid
      exact hout id hid
    · intro id hidlt
      exact htag id hidlt
    · intro e he1 he2
      omega
    · refine ⟨[], ?_, List.nodup_nil, by simp⟩
      rw [show ({ s with numPuddles := s.numPuddles + 1 } : allocState).head
        = s.head from rfl, hhead]
      exact chain.nil
  case isFalse => cases h

/-- `Create` preserves the invariant; the returned identity was not
outstanding. -/
theorem create_inv (s s' : allocState) (out : List Nat) (id : Nat)
    (hInv : Inv s out) (h : create s = some (id, s')) :
    id ∉ out ∧ Inv s' (id :: out) := by
  simp only [create] at h
  rcases pop_inv s out hInv with ⟨hh, hpop⟩ | ⟨id2, s2, hpop, hnot, hlt2, hnum2, hInv2⟩
  · rw [hpop] at h
    dsimp only at h
    cases hap : allocPuddle s with
    | none => rw [hap] at h; cases h
    | some s2 =>
      rw [hap] at h
      dsimp only at h
      have hInv2 := allocPuddle_inv s s2 out hInv hh hap
      rcases pop_inv s2 out hInv2 with ⟨hh2, hpop2⟩ | ⟨id3, s3, hpop2, hnot3, hlt3, hnum3, hInv3⟩
      · rw [hpop2] at h
        dsimp only at h
        cases h
      · rw [hpop2] at h
        dsimp only at h
        cases h
        exact ⟨hnot3, hInv3⟩
  · rw [hpop] at h
    dsimp only at h
    cases h
    exact ⟨hnot, hInv2⟩

/-- One client operation preserves the invariant. -/
theorem execOp_inv (so so' : allocState × List Nat) (o : op)
    (hInv : Inv so.1 so.2) (h : execOp so o = some so') : Inv so'.1 so'.2 := by
  cases o with
  | createOp =>
    simp only [execOp] at h
    cases hc : create so.1 with
    | none => rw [hc] at h; cases h
    | some r =>
      obtain ⟨rid, rs⟩ := r
      rw [hc] at h
      cases h
      exact (create_inv so.1 rs so.2 rid hInv hc).2
  | destroyOp id =>
    simp only [execOp] at h
    split at h
    case isTrue hmem =>
      cases hd : destroy so.1 id with
      | none => rw [hd] at h; cases h
      | some s2 =>
        rw [hd] at h
        cases h
        exact push_inv so.1 s2 so.2 id hInv hmem hd
    case isFalse => cases h

/-- Every reachable state of a client execution satisfies the invariant. -/
theorem exec_inv (ops : List op) :
    ∀ so so', Inv so.1 so.2 → exec so ops = some so' → Inv so'.1 so'.2 := by
  induction ops with
  | nil =>
    intro so so' hInv h
    cases h
    exact hInv
  | cons o os ih =>
    intro so so' hInv h
    simp only [exec] at h
    cases he : execOp so o with
    | none => rw [he] at h; cases h
    | some so1 =>
      rw [he] at h
      simp only [Option.some_bind] at h
      exact ih so1 so' (execOp_inv so so1 o hInv he) h

/-- A fresh allocator satisfies the invariant with nothing outstanding. -/
theorem Inv_mkAlloc (es : Nat) : Inv (mkAlloc es) [] := by
  refine ⟨List.nodup_nil, by simp, ?_, by simp [mkAlloc], [], ?_, List.nodup_nil⟩
  · intro id hid
    simp [mkAlloc] at hid
  · rw [show (mkAlloc es).head = invalidTag from rfl]
    exact chain.nil

end PoolAlloc

namespace PoolAlloc

/-- C8: in any single-threaded execution (any sequence of `Create`s and
`Destroy`s of outstanding objects, starting from a fresh allocator), the
object pointers currently outstanding — block address plus the 16-byte header,
i.e. `puddles[id/256] + (id%256)*elmSize + 16` — are pairwise distinct, and
each lies in an allocated puddle at a stride-aligned offset.  `pb` gives the
puddle base addresses; the hypothesis states that distinct slots of the (at
most 256) puddles have distinct addresses, i.e. that the memory provider
returned non-overlapping puddles. -/
theorem c8_distinct (es : Nat) (pb : Nat → Nat) (ops : List op)
    (s : allocState) (out : List Nat)
    (hinj : ∀ p1 e1 p2 e2, p1 < 256 → e1 < 256 → p2 < 256 → e2 < 256 →
      pb p1 + e1 * es = pb p2 + e2 * es → p1 = p2 ∧ e1 = e2)
    (hexec : exec (mkAlloc es, []) ops = some (s, out)) :
    (out.map fun id => pb (id / 256) + (id % 256) * es + 16).Nodup
    ∧ ∀ id ∈ out, id / 256 < s.numPuddles ∧ id % 256 < 256
        ∧ pb (id / 256) + (id % 256) * es = addressFromTag pb es id := by
  have hInv := exec_inv ops (mkAlloc es, []) (s, out) (Inv_mkAlloc es) hexec
  dsimp only at hInv
  obtain ⟨hnd, hout, _, hnp, _⟩ := hInv
  have h6 : ∀ id ∈ out, id < 65536 := by
    intro id hid
    have h3 := (hout id hid).2.2
    have := Nat.mul_le_mul_right 256 hnp
    omega
  constructor
  · refine List.Nodup.map_on ?_ hnd
    intro x hx y hy hfeq
    have hxb := h6 x hx
    have hyb := h6 y hy
    have heq' : pb (x / 256) + (x % 256) * es = pb (y / 256) + (y % 256) * es := by
      omega
    have := hinj (x / 256) (x % 256) (y / 256) (y % 256)
      (by omega) (by omega) (by omega) (by omega) heq'
    omega
  · intro id hid
    have h3 := (hout id hid).2.2
    have h65 : id % 65536 = id := by
      have := h6 id hid
      omega
    refine ⟨by omega, by omega, ?_⟩
    simp [addressFromTag, h65]

/-- The (state, outstanding) pair after one `Create` on a fresh stride-48
allocator, named so the witness below can state the run concretely. -/
def c8run : Option (allocState × List Nat) := exec (mkAlloc 48, []) [op.createOp]

def c8s : allocState := (c8run.map Prod.fst).getD (mkAlloc 48)

def c8out : List Nat := (c8run.map Prod.snd).getD []

set_option maxRecDepth 100000 in
/-- Witness for C8: one `Create` on a fresh allocator with stride 48 and
puddles laid out 16384 bytes apart. -/
theorem c8_distinct_witness :
    exec (mkAlloc 48, []) [op.createOp] = some (c8s, c8out)
    ∧ ((c8out.map fun id => (fun p => 16384 * p) (id / 256) + (id % 256) * 48 + 16).Nodup
    ∧ ∀ id ∈ c8out, id / 256 < c8s.numPuddles ∧ id % 256 < 256
        ∧ (fun p => 16384 * p) (id / 256) + (id % 256) * 48
          = addressFromTag (fun p => 16384 * p) 48 id) :=
  ⟨rfl, c8_distinct 48 (fun p => 16384 * p) [op.createOp] c8s c8out
    (by intro p1 e1 p2 e2 h1 h2 h3 h4 h5; dsimp only at h5; omega) rfl⟩

end PoolAlloc

namespace PoolAlloc

/-! ### Closed-form executions: filling and draining whole puddles (C4, C9) -/

/-- The handle stamped on element `e` of puddle `p` when `pushDown p _ k` runs
from generation counter `u`: element `e` is pushed `k - e`-th, so its
generation is the low 16 bits of `u + (k - e)`. -/
def fillTag (p e u k : Nat) : Nat :=
  (p * 256 + e) + ((u + (k - e)) % 65536) * 65536

/-- Explicit result of a successful `pop` step. -/
theorem pop_step (s : allocState) (t : Nat) (hh : s.head = t) (hne : t ≠ invalidTag)
    (b : node) (hb : s.blocks (t % 65536) = b) (hfree : b.state = nodeState.free) :
    pop s = some (some (t % 65536), { s with
      head := b.next
      blocks := fun j => if j = t % 65536 then ⟨invalidTag, b.myTag, nodeState.used⟩
        else s.blocks j }) := by
  subst hh
  subst hb
  simp only [pop, if_neg hne]
  rw [if_pos hfree]

/-- `Create` when the first `pop` succeeds. -/
theorem create_step (s : allocState) (id : Nat) (s' : allocState)
    (hpop : pop s = some (some id, s')) : create s = some (id, s') := by
  simp only [create]
  rw [hpop]

/-- `Create` when the free list is empty: grow a puddle, then pop. -/
theorem create_grow (s s2 : allocState) (id : Nat) (s3 : allocState)
    (hh : s.head = invalidTag) (hap : allocPuddle s = some s2)
    (hpop2 : pop s2 = some (some id, s3)) : create s = some (id, s3) := by
  simp only [create]
  rw [show pop s = some (none, s) by simp [pop, hh]]
  dsimp only
  rw [hap]
  dsimp only
  rw [hpop2]

/-- `Create` with an empty free list and all 256 puddles allocated dies on the
capacity assertion in `allocPuddle`. -/
theorem create_fail (s : allocState) (hh : s.head = invalidTag)
    (hnp : ¬ s.numPuddles < 256) : create s = none := by
  simp only [create]
  rw [show pop s = some (none, s) by simp [pop, hh]]
  dsimp only
  rw [show allocPuddle s = none by simp [allocPuddle, hnp]]

theorem createN_succ_of (s s2 : allocState) (id n : Nat)
    (hcreate : create s = some (id, s2)) :
    createN s (n + 1) = createN s2 n := by
  simp only [createN]
  rw [hcreate]

theorem createN_add (a : Nat) :
    ∀ (s : allocState) (b : Nat),
      createN s (a + b) = (createN s a).bind fun s' => createN s' b := by
  induction a with
  | zero =>
    intro s b
    simp [createN]
  | succ a ih =>
    intro s b
    have : a + 1 + b = (a + b) + 1 := by omega
    rw [this]
    simp only [createN]
    cases hc : create s with
    | none => simp
    | some r =>
      obtain ⟨id, s2⟩ := r
      simp only [Option.some_bind]
      exact ih s2 b

end PoolAlloc

namespace PoolAlloc

/-- Closed form of the `allocPuddle` population loop: pushing elements
`k-1 … 0` of puddle `p` onto the free list advances the generation counter by
`k`, leaves the head on element 0's fresh handle, and links element `e` to
element `e+1` (the last pushed element keeping the previously observed head). -/
theorem pushDown_closed (p : Nat) :
    ∀ (k : Nat), k ≤ 256 → p < 256 →
    ∀ s : allocState, s.uniqueCount + k < 4294967296 →
    ∃ s', pushDown p s k = some s'
      ∧ s'.elmSize = s.elmSize
      ∧ s'.numPuddles = s.numPuddles
      ∧ s'.uniqueCount = s.uniqueCount + k
      ∧ s'.head = (if k = 0 then s.head else fillTag p 0 s.uniqueCount k)
      ∧ (∀ e, e < k → s'.blocks (p * 256 + e) =
          ⟨if e + 1 < k then fillTag p (e + 1) s.uniqueCount k else s.head,
            fillTag p e s.uniqueCount k, nodeState.free⟩)
      ∧ (∀ j, j < p * 256 ∨ p * 256 + k ≤ j → s'.blocks j = s.blocks j) := by
  intro k
  induction k with
  | zero =>
    intro _ hp s hu
    refine ⟨s, rfl, rfl, rfl, by omega, by simp, ?_, fun j _ => rfl⟩
    intro e he
    exact absurd he (by omega)
  | succ k ih =>
    intro hk hp s hu
    have hs1b : ((({ s with blocks := fun j => if j = p * 256 + k then ⟨invalidTag, p * 256 + k, nodeState.init⟩ else s.blocks j } : allocState)).blocks (p * 256 + k))
        = ⟨invalidTag, p * 256 + k, nodeState.init⟩ := by simp
    obtain ⟨s3, hrun3, he3, hn3, hu3, hh3, hb3, hf3⟩ :=
      ih (by omega) hp
        ({ s with
          uniqueCount := (s.uniqueCount + 1) % 4294967296
          head := (p * 256 + k) % 65536
            + ((s.uniqueCount + 1) % 4294967296 % 65536) * 65536
          blocks := fun j => if j = p * 256 + k then
              ⟨s.head, (p * 256 + k) % 65536
                + ((s.uniqueCount + 1) % 4294967296 % 65536) * 65536, nodeState.free⟩
            else if j = p * 256 + k then ⟨invalidTag, p * 256 + k, nodeState.init⟩
            else s.blocks j } : allocState)
        (by dsimp only; omega)
    dsimp only at hrun3 he3 hn3 hu3 hh3 hb3 hf3
    have hnewTag : (p * 256 + k) % 65536
        + ((s.uniqueCount + 1) % 4294967296 % 65536) * 65536
        = fillTag p k s.uniqueCount (k + 1) := by
      simp only [fillTag]
      omega
    refine ⟨s3, ?_, he3, hn3, ?_, ?_, ?_, ?_⟩
    · simp only [pushDown, initAndPush]
      rw [push_eq_of _ _ (Or.inl (by rw [hs1b])) (by rw [hs1b])]
      rw [hs1b]
      simp only [Option.some_bind]
      exact hrun3
    · omega
    · rw [hh3, if_neg (show ¬ k + 1 = 0 by omega)]
      rcases Nat.eq_zero_or_pos k with rfl | hkpos
      · rw [if_pos rfl]
        simp only [fillTag]
        omega
      · rw [if_neg (show ¬ k = 0 by omega)]
        simp only [fillTag]
        omega
    · intro e he
      rcases Nat.lt_succ_iff_lt_or_eq.mp he with helt | rfl
      · rw [hb3 e helt]
        by_cases hcase : e + 1 < k
        · simp only [if_pos hcase, if_pos (show e + 1 < k + 1 by omega),
            node.mk.injEq, fillTag]
          exact ⟨by omega, by omega, trivial⟩
        · have hek : e + 1 = k := by omega
          simp only [if_neg hcase, if_pos (show e + 1 < k + 1 by omega),
            node.mk.injEq, fillTag]
          exact ⟨by omega, by omega, trivial⟩
      · rw [hf3 (p * 256 + e) (Or.inr le_rfl)]
        have hself : ∀ (a b : node),
            (if p * 256 + e = p * 256 + e then a else b) = a := fun a b => if_pos rfl
        rw [hself]
        rw [if_neg (show ¬ e + 1 < e + 1 by omega), hnewTag]
    · intro j hj
      rw [hf3 j (by rcases hj with h | h; exact Or.inl h; exact Or.inr (by omega))]
      have hne : j ≠ p * 256 + k := by omega
      simp only [if_neg hne]

end PoolAlloc

namespace PoolAlloc

/-- Closed form of `allocPuddle` on any state with a spare puddle slot. -/
theorem allocPuddle_closed (s : allocState) (hnp : s.numPuddles < 256)
    (hu : s.uniqueCount + 256 < 4294967296) :
    ∃ s', allocPuddle s = some s'
      ∧ s'.elmSize = s.elmSize
      ∧ s'.numPuddles = s.numPuddles + 1
      ∧ s'.uniqueCount = s.uniqueCount + 256
      ∧ s'.head = fillTag s.numPuddles 0 s.uniqueCount 256
      ∧ (∀ e, e < 256 → s'.blocks (s.numPuddles * 256 + e) =
          ⟨if e + 1 < 256 then fillTag s.numPuddles (e + 1) s.uniqueCount 256 else s.head,
            fillTag s.numPuddles e s.uniqueCount 256, nodeState.free⟩)
      ∧ (∀ j, j < s.numPuddles * 256 ∨ s.numPuddles * 256 + 256 ≤ j →
          s'.blocks j = s.blocks j) := by
  obtain ⟨s', hrun, he, hn, hu', hh, hb, hf⟩ :=
    pushDown_closed s.numPuddles 256 le_rfl hnp
      ({ s with numPuddles := s.numPuddles + 1 }) (by dsimp only; omega)
  dsimp only at hrun he hn hu' hh hb hf
  refine ⟨s', ?_, he, hn, hu', ?_, hb, hf⟩
  · simp only [allocPuddle]
    rw [if_pos hnp]
    exact hrun
  · rw [hh, if_neg (show ¬ (256 : Nat) = 0 by omega)]

/-- Draining the remaining `m` elements of a freshly filled puddle `p` by `m`
`Create` calls: elements `256-m, …, 255` are returned in order, each marked
`used` with sentinel `next`, and the head ends on the sentinel the fill
started from. -/
theorem drain_loop (p u : Nat) (hp : p < 256)
    (hne : ∀ e, e < 256 → fillTag p e u 256 ≠ invalidTag) :
    ∀ (m : Nat), m ≤ 256 →
    ∀ s : allocState,
    s.head = (if 0 < m then fillTag p (256 - m) u 256 else invalidTag) →
    (∀ e, 256 - m ≤ e → e < 256 → s.blocks (p * 256 + e) =
        ⟨if e + 1 < 256 then fillTag p (e + 1) u 256 else invalidTag,
          fillTag p e u 256, nodeState.free⟩) →
    ∃ s', createN s m = some s'
      ∧ s'.elmSize = s.elmSize ∧ s'.numPuddles = s.numPuddles
      ∧ s'.uniqueCount = s.uniqueCount
      ∧ s'.head = invalidTag
      ∧ (∀ e, 256 - m ≤ e → e < 256 → s'.blocks (p * 256 + e) =
          ⟨invalidTag, fillTag p e u 256, nodeState.used⟩)
      ∧ (∀ j, j < p * 256 + (256 - m) ∨ p * 256 + 256 ≤ j →
          s'.blocks j = s.blocks j) := by
  intro m
  induction m with
  | zero =>
    intro _ s hh hb
    rw [if_neg (by omega)] at hh
    refine ⟨s, rfl, rfl, rfl, rfl, hh, ?_, fun j _ => rfl⟩
    intro e he1 he2
    omega
  | succ m ih =>
    intro hm s hh hb
    rw [if_pos (by omega)] at hh
    have hj256 : 256 - (m + 1) < 256 := by omega
    have hmod : fillTag p (256 - (m + 1)) u 256 % 65536 = p * 256 + (256 - (m + 1)) := by
      simp only [fillTag]
      omega
    have hbj := hb (256 - (m + 1)) le_rfl hj256
    have hpop := pop_step s (fillTag p (256 - (m + 1)) u 256) hh
      (hne _ hj256)
      ⟨if 256 - (m + 1) + 1 < 256 then fillTag p (256 - (m + 1) + 1) u 256 else invalidTag,
        fillTag p (256 - (m + 1)) u 256, nodeState.free⟩
      (by rw [hmod]; exact hbj) rfl
    rw [hmod] at hpop
    have hcreate := create_step s _ _ hpop
    have hstep := createN_succ_of s _ _ m hcreate
    obtain ⟨s3, hrun3, he3, hn3, hu3, hh3, hb3, hf3⟩ := ih (by omega)
      ({ s with
        head := if 256 - (m + 1) + 1 < 256 then fillTag p (256 - (m + 1) + 1) u 256
          else invalidTag
        blocks := fun j => if j = p * 256 + (256 - (m + 1)) then
            ⟨invalidTag, fillTag p (256 - (m + 1)) u 256, nodeState.used⟩
          else s.blocks j } : allocState)
      (by
        try dsimp only
        by_cases hm0 : 0 < m
        · rw [if_pos (by omega : 256 - (m + 1) + 1 < 256), if_pos hm0]
          have h256 : 256 - (m + 1) + 1 = 256 - m := by omega
          rw [h256]
        · rw [if_neg (by omega : ¬ 256 - (m + 1) + 1 < 256), if_neg hm0])
      (by
        intro e he1 he2
        try dsimp only
        rw [if_neg (by omega : ¬ p * 256 + e = p * 256 + (256 - (m + 1)))]
        exact hb e (by omega) he2)
    dsimp only at he3 hn3 hu3 hb3 hf3
    refine ⟨s3, by rw [hstep]; exact hrun3, he3, hn3, hu3, hh3, ?_, ?_⟩
    · intro e he1 he2
      by_cases hej : e = 256 - (m + 1)
      · rw [hej]
        rw [hf3 (p * 256 + (256 - (m + 1))) (Or.inl (by omega))]
        have hself : ∀ (a b : node),
            (if p * 256 + (256 - (m + 1)) = p * 256 + (256 - (m + 1)) then a else b) = a :=
          fun a b => if_pos rfl
        rw [hself]
      · rw [hb3 e (by omega) he2]
    · intro j hjc
      rw [hf3 j (by rcases hjc with h | h; exact Or.inl (by omega); exact Or.inr h)]
      rw [if_neg (by omega : ¬ j = p * 256 + (256 - (m + 1)))]

end PoolAlloc

namespace PoolAlloc

/-- With an empty free list and a spare slot, 256 `Create` calls allocate one
puddle and hand out all of its 256 blocks, leaving the free list empty again
and the generation counter advanced by 256. -/
theorem drain_puddle (s : allocState) (hnp : s.numPuddles < 256)
    (hh : s.head = invalidTag)
    (hu : s.uniqueCount + 256 < 4294967296)
    (hgen : ∀ e, e < 256 → fillTag s.numPuddles e s.uniqueCount 256 ≠ invalidTag) :
    ∃ s', createN s 256 = some s'
      ∧ s'.elmSize = s.elmSize
      ∧ s'.numPuddles = s.numPuddles + 1
      ∧ s'.uniqueCount = s.uniqueCount + 256
      ∧ s'.head = invalidTag
      ∧ (∀ e, e < 256 → s'.blocks (s.numPuddles * 256 + e) =
          ⟨invalidTag, fillTag s.numPuddles e s.uniqueCount 256, nodeState.used⟩)
      ∧ (∀ j, j < s.numPuddles * 256 ∨ s.numPuddles * 256 + 256 ≤ j →
          s'.blocks j = s.blocks j) := by
  obtain ⟨s2, hap, he2, hn2, hu2, hh2, hb2, hf2⟩ := allocPuddle_closed s hnp hu
  have hb2' : ∀ e, e < 256 → s2.blocks (s.numPuddles * 256 + e) =
      ⟨if e + 1 < 256 then fillTag s.numPuddles (e + 1) s.uniqueCount 256 else invalidTag,
        fillTag s.numPuddles e s.uniqueCount 256, nodeState.free⟩ := by
    intro e he
    rw [hb2 e he, ← hh]
  have hmod : fillTag s.numPuddles 0 s.uniqueCount 256 % 65536
      = s.numPuddles * 256 + 0 := by
    simp only [fillTag]
    omega
  have hpop := pop_step s2 (fillTag s.numPuddles 0 s.uniqueCount 256) hh2
    (hgen 0 (by omega))
    ⟨if 0 + 1 < 256 then fillTag s.numPuddles (0 + 1) s.uniqueCount 256 else invalidTag,
      fillTag s.numPuddles 0 s.uniqueCount 256, nodeState.free⟩
    (by rw [hmod]; exact hb2' 0 (by omega)) rfl
  rw [hmod] at hpop
  have hcreate := create_grow s s2 _ _ hh hap hpop
  have hstep := createN_succ_of s _ _ 255 hcreate
  obtain ⟨s3, hrun3, he3, hn3, hu3, hh3, hb3, hf3⟩ :=
    drain_loop s.numPuddles s.uniqueCount hnp hgen 255 (by omega)
      ({ s2 with
        head := if 0 + 1 < 256 then fillTag s.numPuddles (0 + 1) s.uniqueCount 256
          else invalidTag
        blocks := fun j => if j = s.numPuddles * 256 + 0 then
            ⟨invalidTag, fillTag s.numPuddles 0 s.uniqueCount 256, nodeState.used⟩
          else s2.blocks j } : allocState)
      (by
        try dsimp only
        rw [if_pos (by omega : 0 + 1 < 256), if_pos (by omega : 0 < 255)])
      (by
        intro e he1 he2
        try dsimp only
        rw [if_neg (by omega : ¬ s.numPuddles * 256 + e = s.numPuddles * 256 + 0)]
        exact hb2' e he2)
  dsimp only at he3 hn3 hu3 hb3 hf3
  refine ⟨s3, ?_, by rw [he3, he2], by rw [hn3, hn2], by rw [hu3, hu2], hh3, ?_, ?_⟩
  · rw [show (256 : Nat) = 255 + 1 from rfl, hstep]
    exact hrun3
  · intro e he
    by_cases he0 : e = 0
    · rw [he0]
      rw [hf3 (s.numPuddles * 256 + 0) (Or.inl (by omega))]
      have hself : ∀ (a b : node),
          (if s.numPuddles * 256 + 0 = s.numPuddles * 256 + 0 then a else b) = a :=
        fun a b => if_pos rfl
      rw [hself]
    · rw [hb3 e (by omega) he]
  · intro j hjc
    rw [hf3 j (by rcases hjc with hc | hc; exact Or.inl (by omega); exact Or.inr hc)]
    rw [if_neg (by omega : ¬ j = s.numPuddles * 256 + 0)]
    exact hf2 j hjc

end PoolAlloc

namespace PoolAlloc

/-- Draining `k` whole puddles from a fresh allocator: `k*256` `Create` calls
succeed, the puddle count reaches `k`, the generation counter reaches `k*256`,
the free list is empty, and every handed-out block is `used` with sentinel
`next` and its identity in the low 16 bits of its handle. -/
theorem drain_all (es : Nat) :
    ∀ k, k ≤ 256 →
    ∃ s', createN (mkAlloc es) (k * 256) = some s'
      ∧ s'.elmSize = es
      ∧ s'.numPuddles = k
      ∧ s'.uniqueCount = k * 256
      ∧ s'.head = invalidTag
      ∧ (∀ id, id < k * 256 → (s'.blocks id).state = nodeState.used
          ∧ (s'.blocks id).next = invalidTag
          ∧ (s'.blocks id).myTag % 65536 = id) := by
  intro k
  induction k with
  | zero =>
    intro _
    exact ⟨mkAlloc es, rfl, rfl, rfl, rfl, rfl, fun id hid => absurd hid (by omega)⟩
  | succ k ih =>
    intro hk
    obtain ⟨sk, hrun, he, hn, hu, hh, hb⟩ := ih (by omega)
    obtain ⟨s', hrun', he', hn', hu', hh', hb', hf'⟩ := drain_puddle sk
      (by omega) hh (by omega)
      (by
        intro e he2
        simp only [fillTag, hn, hu, invalidTag]
        omega)
    refine ⟨s', ?_, by rw [he', he], by rw [hn', hn], by omega, hh', ?_⟩
    · rw [show (k + 1) * 256 = k * 256 + 256 by ring, createN_add]
      rw [hrun]
      simp only [Option.some_bind]
      exact hrun'
    · intro id hid
      by_cases hlo : id < k * 256
      · have hfr := hf' id (Or.inl (by omega))
        rw [hfr]
        exact hb id hlo
      · have he2 : id = k * 256 + (id - k * 256) := by omega
        have hblk := hb' (id - k * 256) (by omega)
        rw [hn, hu] at hblk
        rw [he2, hblk]
        refine ⟨rfl, rfl, ?_⟩
        simp only [fillTag]
        omega

/-- C4: starting from a freshly constructed allocator, 65 536 sequential
`Create` calls all succeed and bring the puddle count to 256; the 65 537th
`Create` finds the free list empty (head is the sentinel), invokes
`allocPuddle` with the puddle count already at 256, and dies on the capacity
assertion (`none`) instead of returning. -/
theorem c4_capacity (es : Nat) :
    ∃ s', createN (mkAlloc es) 65536 = some s'
      ∧ s'.numPuddles = 256
      ∧ s'.head = invalidTag
      ∧ allocPuddle s' = none
      ∧ create s' = none := by
  obtain ⟨s', hrun, he, hn, hu, hh, hb⟩ := drain_all es 256 le_rfl
  refine ⟨s', hrun, hn, hh, ?_, create_fail s' hh (by omega)⟩
  simp [allocPuddle, hn]

end PoolAlloc

namespace PoolAlloc

/-- `n` repetitions of `Destroy` followed by `Create` on the block with
identity `id` (single-threaded: the LIFO free list hands the same block back). -/
def destroyCreateN (id : Nat) (s : allocState) : Nat → Option allocState
  | 0 => some s
  | n + 1 =>
    match destroy s id with
    | none => none
    | some s2 =>
      match create s2 with
      | none => none
      | some (_, s3) => destroyCreateN id s3 n

/-- One `Destroy`/`Create` cycle on a `used` block of a drained allocator:
provided the freshly stamped handle is not the sentinel, the block comes
straight back and only the generation counter and the block's handle move. -/
theorem cycle_step (s : allocState) (id : Nat)
    (hid65 : id < 65536)
    (hused : (s.blocks id).state = nodeState.used)
    (hnext : (s.blocks id).next = invalidTag)
    (hmy : (s.blocks id).myTag % 65536 = id)
    (hh : s.head = invalidTag)
    (hu : s.uniqueCount + 1 < 4294967296)
    (hgen : id + (s.uniqueCount + 1) % 65536 * 65536 ≠ invalidTag) :
    ∃ s2 s3, destroy s id = some s2 ∧ create s2 = some (id, s3)
      ∧ s3.elmSize = s.elmSize ∧ s3.numPuddles = s.numPuddles
      ∧ s3.uniqueCount = s.uniqueCount + 1
      ∧ s3.head = invalidTag
      ∧ s3.blocks id = ⟨invalidTag, id + (s.uniqueCount + 1) % 65536 * 65536, nodeState.used⟩
      ∧ (∀ j, j ≠ id → s3.blocks j = s.blocks j) := by
  have hpush := push_eq_of s id (Or.inr hused) hnext
  have htag : (s.blocks id).myTag % 65536
      + (s.uniqueCount + 1) % 4294967296 % 65536 * 65536
      = id + (s.uniqueCount + 1) % 65536 * 65536 := by
    rw [hmy]
    omega
  rw [htag] at hpush
  have hpop := pop_step
    ({ s with
      uniqueCount := (s.uniqueCount + 1) % 4294967296
      head := id + (s.uniqueCount + 1) % 65536 * 65536
      blocks := fun j => if j = id then
          ⟨s.head, id + (s.uniqueCount + 1) % 65536 * 65536, nodeState.free⟩
        else s.blocks j } : allocState)
    (id + (s.uniqueCount + 1) % 65536 * 65536) rfl hgen
    ⟨s.head, id + (s.uniqueCount + 1) % 65536 * 65536, nodeState.free⟩
    (by
      try dsimp only
      rw [show (id + (s.uniqueCount + 1) % 65536 * 65536) % 65536 = id by omega]
      have hself : ∀ (a b : node), (if id = id then a else b) = a := fun a b => if_pos rfl
      rw [hself])
    rfl
  rw [show (id + (s.uniqueCount + 1) % 65536 * 65536) % 65536 = id by omega] at hpop
  refine ⟨_, _, hpush, create_step _ _ _ hpop, rfl, rfl, by dsimp only; omega, ?_, ?_, ?_⟩
  · try dsimp only
    exact hh
  · try dsimp only
    have hself : ∀ (a b : node), (if id = id then a else b) = a := fun a b => if_pos rfl
    rw [hself]
  · intro j hj
    try dsimp only
    rw [if_neg hj, if_neg hj]

/-- Iterated `Destroy`/`Create` cycles on one block: the generation counter
advances by one per cycle while everything else stays put, as long as no
stamped handle collides with the sentinel. -/
theorem cycleN (id : Nat) (hid65 : id < 65536) :
    ∀ (n : Nat) (s : allocState),
    (s.blocks id).state = nodeState.used →
    (s.blocks id).next = invalidTag →
    (s.blocks id).myTag % 65536 = id →
    s.head = invalidTag →
    s.uniqueCount + n < 4294967296 →
    (∀ i, i < n → id + (s.uniqueCount + i + 1) % 65536 * 65536 ≠ invalidTag) →
    ∃ s', destroyCreateN id s n = some s'
      ∧ s'.elmSize = s.elmSize ∧ s'.numPuddles = s.numPuddles
      ∧ s'.uniqueCount = s.uniqueCount + n
      ∧ s'.head = invalidTag
      ∧ (s'.blocks id).state = nodeState.used
      ∧ (s'.blocks id).next = invalidTag
      ∧ (s'.blocks id).myTag % 65536 = id
      ∧ (∀ j, j ≠ id → s'.blocks j = s.blocks j) := by
  intro n
  induction n with
  | zero =>
    intro s hused hnext hmy hh hu hgen
    exact ⟨s, rfl, rfl, rfl, by omega, hh, hused, hnext, hmy, fun j _ => rfl⟩
  | succ n ih =>
    intro s hused hnext hmy hh hu hgen
    obtain ⟨s2, s3, hdes, hcre, he3, hn3, hu3, hh3, hb3, hf3⟩ :=
      cycle_step s id hid65 hused hnext hmy hh (by omega)
        (by
          have := hgen 0 (by omega)
          simpa using this)
    obtain ⟨s', hrun, he', hn', hu', hh', hused', hnext', hmy', hf'⟩ :=
      ih s3 (by rw [hb3]) (by rw [hb3]) (by rw [hb3]; dsimp only; omega) hh3 (by omega)
        (by
          intro i hi
          rw [hu3]
          have := hgen (i + 1) (by omega)
          have harith : s.uniqueCount + (i + 1) + 1 = s.uniqueCount + 1 + i + 1 := by omega
          rw [harith] at this
          exact this)
    refine ⟨s', ?_, by rw [he', he3], by rw [hn', hn3], by omega, hh', hused', hnext',
      hmy', ?_⟩
    · simp only [destroyCreateN]
      rw [hdes]
      dsimp only
      rw [hcre]
      exact hrun
    · intro j hj
      rw [hf' j hj, hf3 j hj]

end PoolAlloc

namespace PoolAlloc

/-- C9: a reachable single-threaded state in which a valid block's stamped
handle equals the sentinel.  Reachability: 65 536 `Create`s fill all 256
puddles (generation counter 65 536), then 65 534 `Destroy`/`Create` cycles on
block 65 535 (puddle 255, element 255) bring the counter to 131 070.  The next
`Destroy` pushes that block when the incremented counter's low 16 bits are
`0xFFFF`, so the stamp `(0xFFFF | (0xFFFF << 16))` writes `0xFFFFFFFF` — the
sentinel — as the block's handle and installs it as the free-list head; `pop`
then reports the free list empty even though the block is on it. -/
theorem c9_sentinel_collision (es : Nat) :
    ∃ sFull sCyc sBad,
      createN (mkAlloc es) 65536 = some sFull
      ∧ destroyCreateN 65535 sFull 65534 = some sCyc
      ∧ sCyc.numPuddles = 256
      ∧ (sCyc.uniqueCount + 1) % 65536 = 65535
      ∧ (sCyc.blocks 65535).myTag % 65536 = 65535
      ∧ (sCyc.blocks 65535).state = nodeState.used
      ∧ destroy sCyc 65535 = some sBad
      ∧ (sBad.blocks 65535).myTag = invalidTag
      ∧ sBad.head = (sBad.blocks 65535).myTag
      ∧ (sBad.blocks 65535).state = nodeState.free
      ∧ pop sBad = some (none, sBad) := by
  obtain ⟨sFull, hrunF, heF, hnF, huF, hhF, hbF⟩ := drain_all es 256 le_rfl
  obtain ⟨hsF, hxF, hmF⟩ := hbF 65535 (by omega)
  obtain ⟨sCyc, hrunC, heC, hnC, huC, hhC, husedC, hnextC, hmyC, hfC⟩ :=
    cycleN 65535 (by omega) 65534 sFull hsF hxF hmF hhF (by omega)
      (by
        intro i hi
        rw [huF]
        simp only [invalidTag]
        omega)
  have huC' : sCyc.uniqueCount = 131070 := by omega
  have hpush := push_eq_of sCyc 65535 (Or.inr husedC) hnextC
  have htagval : (sCyc.blocks 65535).myTag % 65536
      + (sCyc.uniqueCount + 1) % 4294967296 % 65536 * 65536 = invalidTag := by
    rw [hmyC]
    simp only [invalidTag]
    omega
  have hself : ∀ (a b : node), (if (65535 : Nat) = 65535 then a else b) = a :=
    fun a b => if_pos rfl
  refine ⟨sFull, sCyc, _, hrunF, hrunC, by rw [hnC, hnF], by omega, hmyC, husedC,
    hpush, ?_, ?_, ?_, ?_⟩
  · try dsimp only
    rw [hself]
    exact htagval
  · try dsimp only
    rw [hself]
  · try dsimp only
    rw [hself]
  · have hbh : ({ sCyc with
        uniqueCount := (sCyc.uniqueCount + 1) % 4294967296
        head := (sCyc.blocks 65535).myTag % 65536
          + (sCyc.uniqueCount + 1) % 4294967296 % 65536 * 65536
        blocks := fun j => if j = 65535 then
            ⟨sCyc.head, (sCyc.blocks 65535).myTag % 65536
              + (sCyc.uniqueCount + 1) % 4294967296 % 65536 * 65536, nodeState.free⟩
          else sCyc.blocks j } : allocState).head = invalidTag := htagval
    simp [pop, hbh]
    exact htagval

end PoolAlloc
